import Mathlib

/-!
Verification of the mcp-list sync/enrichment pipeline.

This file shallowly embeds the data model and the pure core of the
repository's scripts (`scripts/sync.ts`, `scripts/enrichers/index.ts`,
`scripts/enrichers/npm.ts`, `scripts/utils/fetch.ts`, `scripts/registry.ts`)
and proves the testable properties stated in the specification.

Network effects are modelled by passing the outcome of each external call
explicitly (an `Except`/response value per call); timestamps are passed as
explicit environment values.  JavaScript `Map` objects keyed by server name
are modelled as insertion-ordered lists of records, with `mapGet`, `mapSet`
and `mapDelete` mirroring `Map.get`, `Map.set` and `Map.delete`.
-/

/-! ## JavaScript string helpers

`String.prototype.split` with the literal one-character separator `"/"`,
as used by `computeServerFields`.  Implemented over the character list so
that it evaluates by `decide` on concrete inputs.  `"".split("/")` is
`[""]`, matching JavaScript. -/

def splitChars (sep : Char) (cs : List Char) : List (List Char) :=
  match cs with
  | [] => [[]]
  | c :: rest =>
    let r := splitChars sep rest
    if c = sep then [] :: r
    else
      match r with
      | [] => [[c]]
      | seg :: segs => (c :: seg) :: segs

def jsSplit (s : String) (sep : Char) : List String :=
  (splitChars sep s.data).map String.mk

/-- Executable lexicographic order on strings (stands in for the
`localeCompare`-based comparator of `saveServers`; only the fact that the
final snapshot is a permutation of the collection matters to the claims). -/
def charListLe : List Char → List Char → Bool
  | [], _ => true
  | _ :: _, [] => false
  | a :: as, b :: bs => if a = b then charListLe as bs else decide (a < b)

/-! ## Data model (`scripts/types.ts`) -/

inductive RegistryType where
  | npm
  | pypi
  | nuget
  | oci
  | mcpb
deriving DecidableEq, Repr

inductive TransportType where
  | streamableHttp
  | sse
deriving DecidableEq, Repr

inductive ServerStatus where
  | active
  | deprecated
  | deleted
deriving DecidableEq, Repr

structure EnvironmentVariable where
  name : String
  description? : Option String := none
  required? : Option Bool := none
  secret? : Option Bool := none
deriving DecidableEq, Repr

structure RemoteHeader where
  name : String
  description? : Option String := none
  isRequired? : Option Bool := none
  isSecret? : Option Bool := none
deriving DecidableEq, Repr

structure Package where
  registryType : RegistryType
  identifier : String
  transport? : Option (List TransportType) := none
  environmentVariables? : Option (List EnvironmentVariable) := none
  fileSha256? : Option String := none
deriving DecidableEq, Repr

structure Remote where
  type : TransportType
  url : String
  headers? : Option (List RemoteHeader) := none
deriving DecidableEq, Repr

structure Repository where
  url : String
  source? : Option String := none
deriving DecidableEq, Repr

structure MCPRegistryServer where
  name : String
  description : String
  repository? : Option Repository := none
  version : String
  packages? : Option (List Package) := none
  remotes? : Option (List Remote) := none
deriving DecidableEq, Repr

/-- The `"io.modelcontextprotocol.registry/official"` metadata object. -/
structure RegistryMeta where
  status : ServerStatus
  publishedAt : String
  updatedAt : String
  isLatest : Bool
deriving DecidableEq, Repr

structure MCPRegistryEntry where
  server : MCPRegistryServer
  meta : RegistryMeta
deriving DecidableEq, Repr

structure GitHubOwner where
  login : String
  avatar : String
deriving DecidableEq, Repr

structure GitHubEnrichment where
  stars : Nat
  forks : Nat
  openIssues : Nat
  watchers : Nat
  lastCommit : String
  license? : Option String := none
  topics : List String
  language? : Option String := none
  owner : GitHubOwner
  archived : Bool
  defaultBranch : String
deriving DecidableEq, Repr

structure NpmEnrichment where
  weeklyDownloads : Nat
  monthlyDownloads : Nat
  latestVersion : String
  dependencies : Nat
  lastPublished : String
  maintainers : List String
  homepage? : Option String := none
  keywords : List String
deriving DecidableEq, Repr

structure PyPiEnrichment where
  downloads : Nat
  latestVersion : String
  requiresPython? : Option String := none
  lastPublished : String
  author? : Option String := none
  authorEmail? : Option String := none
  homepage? : Option String := none
  keywords : List String
deriving DecidableEq, Repr

structure NuGetEnrichment where
  totalDownloads : Nat
  latestVersion : String
  lastPublished : String
  authors : List String
  tags : List String
  projectUrl? : Option String := none
deriving DecidableEq, Repr

structure DockerEnrichment where
  pulls : Nat
  stars : Nat
  lastUpdated : String
  tags : List String
  description? : Option String := none
  isOfficial : Bool
  isAutomated : Bool
deriving DecidableEq, Repr

structure McpbEnrichment where
  releaseUrl : String
  downloadCount : Nat
  assetSize : Nat
  lastRelease : String
  platforms : List String
  tagName : String
  prerelease : Bool
deriving DecidableEq, Repr

structure Enrichment where
  lastEnrichedAt : String
  github? : Option GitHubEnrichment := none
  npm? : Option NpmEnrichment := none
  pypi? : Option PyPiEnrichment := none
  nuget? : Option NuGetEnrichment := none
  docker? : Option DockerEnrichment := none
  mcpb? : Option McpbEnrichment := none
deriving DecidableEq, Repr

structure ComputedFields where
  organization : String
  serverName : String
  packageTypes : List RegistryType
  hasRemote : Bool
  totalDownloads : Nat
  stars : Nat
deriving DecidableEq, Repr

structure MCPServer where
  name : String
  description : String
  version : String
  repository? : Option Repository := none
  packages : List Package
  remotes : List Remote
  status : ServerStatus
  publishedAt : String
  updatedAt : String
  isLatest : Bool
  enrichment : Enrichment
  computed : ComputedFields
deriving DecidableEq, Repr

/-! ## Derived-field computation (`scripts/enrichers/index.ts`, `computeServerFields`) -/

/-- `server.enrichment?.npm?.monthlyDownloads` with JavaScript truthiness:
an absent slot reads as `0` (falsy), and a present `0` is also falsy. -/
def npmMonthlyOf (server : MCPServer) : Nat :=
  match server.enrichment.npm? with
  | some n => n.monthlyDownloads
  | none => 0

def pypiDownloadsOf (server : MCPServer) : Nat :=
  match server.enrichment.pypi? with
  | some p => p.downloads
  | none => 0

def nugetTotalOf (server : MCPServer) : Nat :=
  match server.enrichment.nuget? with
  | some n => n.totalDownloads
  | none => 0

def dockerPullsOf (server : MCPServer) : Nat :=
  match server.enrichment.docker? with
  | some d => d.pulls
  | none => 0

def mcpbCountOf (server : MCPServer) : Nat :=
  match server.enrichment.mcpb? with
  | some m => m.downloadCount
  | none => 0

/-- `[...new Set(xs)]`: iterate the array, keeping each element the first
time it is seen, exactly as a JavaScript `Set` built from an array does. -/
def jsSetDedupAux {α : Type} [DecidableEq α] (seen : List α) : List α → List α
  | [] => []
  | x :: xs =>
    if x ∈ seen then jsSetDedupAux seen xs
    else x :: jsSetDedupAux (x :: seen) xs

def jsSetDedup {α : Type} [DecidableEq α] (l : List α) : List α :=
  jsSetDedupAux [] l

def computeServerFields (server : MCPServer) : MCPServer :=
  let nameParts := jsSplit server.name '/'
  let organization := if nameParts.length > 1 then nameParts.headD "" else ""
  let serverName :=
    if nameParts.length > 1 then nameParts.getD 1 "" else nameParts.headD ""
  let packageTypes := jsSetDedup (server.packages.map (·.registryType))
  let hasRemote := server.remotes.length > 0
  -- `totalDownloads` accumulates each source's figure when it is truthy
  let totalDownloads : Nat := 0
  let totalDownloads :=
    if npmMonthlyOf server ≠ 0 then totalDownloads + npmMonthlyOf server
    else totalDownloads
  let totalDownloads :=
    if pypiDownloadsOf server ≠ 0 then totalDownloads + pypiDownloadsOf server
    else totalDownloads
  let totalDownloads :=
    if nugetTotalOf server ≠ 0 then totalDownloads + nugetTotalOf server
    else totalDownloads
  let totalDownloads :=
    if dockerPullsOf server ≠ 0 then totalDownloads + dockerPullsOf server
    else totalDownloads
  let totalDownloads :=
    if mcpbCountOf server ≠ 0 then totalDownloads + mcpbCountOf server
    else totalDownloads
  let stars :=
    match server.enrichment.github? with
    | some g => g.stars
    | none => 0
  { server with
    computed := {
      organization := organization
      serverName := serverName
      packageTypes := packageTypes
      hasRemote := decide hasRemote
      totalDownloads := totalDownloads
      stars := stars } }

/-- Replace one source's download figure, leaving every other field alone
(used to state the delta property of `totalDownloads`). -/
def setNpmMonthly (server : MCPServer) (d : Nat) : MCPServer :=
  let base :=
    match server.enrichment.npm? with
    | some n => n
    | none =>
      { weeklyDownloads := 0, monthlyDownloads := 0, latestVersion := ""
        dependencies := 0, lastPublished := "", maintainers := []
        keywords := [] }
  { server with
    enrichment := { server.enrichment with
                    npm? := some { base with monthlyDownloads := d } } }

/-! ## Spec-side definitions for the name split (claim C8)

`specAfterFirstSlash` follows the specification's words for the short name
("the entire remainder of name after the first `/`, the whole name when it
contains no `/`"); `specOrganization` / `specSecondSegment` describe what
the code actually computes, segment-wise. -/

def specAfterFirstSlash (n : String) : String :=
  match n.data.dropWhile (fun c => c ≠ '/') with
  | [] => n
  | _ :: rest => String.mk rest

def specOrganization (n : String) : String :=
  match jsSplit n '/' with
  | seg₁ :: _ :: _ => seg₁
  | _ => ""

def specSecondSegment (n : String) : String :=
  match jsSplit n '/' with
  | _ :: seg₂ :: _ => seg₂
  | [seg₁] => seg₁
  | [] => ""

/-! ## Helper lemmas about `jsSetDedup` and `computeServerFields` -/

theorem jsSetDedupAux_mem {α : Type} [DecidableEq α] (seen : List α)
    (l : List α) (x : α) :
    x ∈ jsSetDedupAux seen l ↔ x ∈ l ∧ x ∉ seen := by
  induction l generalizing seen with
  | nil => simp [jsSetDedupAux]
  | cons y ys ih =>
    rw [jsSetDedupAux]
    by_cases hy : y ∈ seen
    · rw [if_pos hy, ih]
      constructor
      · rintro ⟨hmem, hns⟩
        exact ⟨List.mem_cons_of_mem _ hmem, hns⟩
      · rintro ⟨hmem, hns⟩
        rcases List.mem_cons.mp hmem with hxy | hmem'
        · exact absurd (hxy ▸ hy) hns
        · exact ⟨hmem', hns⟩
    · rw [if_neg hy, List.mem_cons, ih]
      constructor
      · rintro (hxy | ⟨hmem, hns⟩)
        · exact ⟨hxy ▸ List.mem_cons_self _ _, hxy ▸ hy⟩
        · refine ⟨List.mem_cons_of_mem _ hmem, fun hs => hns ?_⟩
          exact List.mem_cons_of_mem _ hs
      · rintro ⟨hmem, hns⟩
        rcases List.mem_cons.mp hmem with hxy | hmem'
        · exact Or.inl hxy
        · by_cases hxy : x = y
          · exact Or.inl hxy
          · exact Or.inr ⟨hmem', by simp [hxy, hns]⟩

theorem jsSetDedup_mem {α : Type} [DecidableEq α] (l : List α) (x : α) :
    x ∈ jsSetDedup l ↔ x ∈ l := by
  rw [jsSetDedup, jsSetDedupAux_mem]
  simp

theorem jsSetDedupAux_nodup {α : Type} [DecidableEq α] (seen : List α)
    (l : List α) : (jsSetDedupAux seen l).Nodup := by
  induction l generalizing seen with
  | nil => simp [jsSetDedupAux]
  | cons y ys ih =>
    rw [jsSetDedupAux]
    by_cases hy : y ∈ seen
    · rw [if_pos hy]; exact ih seen
    · rw [if_neg hy]
      refine List.nodup_cons.mpr ⟨?_, ih (y :: seen)⟩
      rw [jsSetDedupAux_mem]
      simp

theorem jsSetDedup_nodup {α : Type} [DecidableEq α] (l : List α) :
    (jsSetDedup l).Nodup :=
  jsSetDedupAux_nodup [] l

theorem computeServerFields_totalDownloads (server : MCPServer) :
    (computeServerFields server).computed.totalDownloads =
      npmMonthlyOf server + pypiDownloadsOf server + nugetTotalOf server +
        dockerPullsOf server + mcpbCountOf server := by
  simp only [computeServerFields]
  split_ifs <;> omega

/-- A record with only the identity fields filled in, as `convertRegistryEntry`
would produce before enrichment (used to build concrete inputs). -/
def mkServer (name : String) : MCPServer :=
  { name := name
    description := ""
    version := ""
    packages := []
    remotes := []
    status := ServerStatus.active
    publishedAt := ""
    updatedAt := ""
    isLatest := true
    enrichment := { lastEnrichedAt := "" }
    computed := { organization := "", serverName := "", packageTypes := []
                  hasRemote := false, totalDownloads := 0, stars := 0 } }

/-- C7: after `computeServerFields`, `packageTypes` is the deduplicated set of
registry types of the record's packages, `hasRemote` is `remotes.length > 0`,
`totalDownloads` is the sum of the per-source figures (absent sources count as
zero), and changing one source's figure changes the sum by exactly that
delta. -/
theorem computeServerFields_derived (server : MCPServer) (t : RegistryType)
    (d : Nat) :
    (t ∈ (computeServerFields server).computed.packageTypes ↔
      t ∈ server.packages.map (·.registryType))
    ∧ (computeServerFields server).computed.packageTypes.Nodup
    ∧ (computeServerFields server).computed.hasRemote =
        decide (server.remotes.length > 0)
    ∧ (computeServerFields server).computed.totalDownloads =
        npmMonthlyOf server + pypiDownloadsOf server + nugetTotalOf server +
          dockerPullsOf server + mcpbCountOf server
    ∧ (computeServerFields (setNpmMonthly server d)).computed.totalDownloads +
          npmMonthlyOf server =
        (computeServerFields server).computed.totalDownloads + d := by
  refine ⟨?_, ?_, ?_, computeServerFields_totalDownloads server, ?_⟩
  · simpa [computeServerFields] using
      jsSetDedup_mem (server.packages.map (·.registryType)) t
  · simpa [computeServerFields] using
      jsSetDedup_nodup (server.packages.map (·.registryType))
  · rfl
  · have hnpm : npmMonthlyOf (setNpmMonthly server d) = d := by
      cases h : server.enrichment.npm? <;>
        simp [npmMonthlyOf, setNpmMonthly, h]
    have hpypi : pypiDownloadsOf (setNpmMonthly server d) =
        pypiDownloadsOf server := by
      simp [pypiDownloadsOf, setNpmMonthly]
    have hnuget : nugetTotalOf (setNpmMonthly server d) =
        nugetTotalOf server := by
      simp [nugetTotalOf, setNpmMonthly]
    have hdocker : dockerPullsOf (setNpmMonthly server d) =
        dockerPullsOf server := by
      simp [dockerPullsOf, setNpmMonthly]
    have hmcpb : mcpbCountOf (setNpmMonthly server d) =
        mcpbCountOf server := by
      simp [mcpbCountOf, setNpmMonthly]
    rw [computeServerFields_totalDownloads, computeServerFields_totalDownloads,
      hnpm, hpypi, hnuget, hdocker, hmcpb]
    omega

/-- C8 (counterexample): for the name `"a/b/c"`, the code's `serverName` is the
second `/`-separated segment `"b"`, not the entire remainder `"b/c"` after the
first separator that the claim describes. -/
theorem computeServerFields_serverName_cex :
    (computeServerFields (mkServer "a/b/c")).computed.serverName = "b"
    ∧ specAfterFirstSlash "a/b/c" = "b/c"
    ∧ (computeServerFields (mkServer "a/b/c")).computed.serverName ≠
        specAfterFirstSlash (mkServer "a/b/c").name := by
  decide

/-- C8 (amended): `organization` is the first `/`-separated segment of `name`
when a separator exists (empty otherwise), and `serverName` is the second
`/`-separated segment when a separator exists (the whole name otherwise). -/
theorem computeServerFields_name_split (server : MCPServer) :
    (computeServerFields server).computed.organization =
        specOrganization server.name
    ∧ (computeServerFields server).computed.serverName =
        specSecondSegment server.name := by
  rcases h : jsSplit server.name '/' with _ | ⟨a, _ | ⟨b, rest⟩⟩ <;>
    simp [computeServerFields, specOrganization, specSecondSegment, h]

/-- C10: `computeServerFields` changes only the `_computed` field; the name,
registry-sourced fields and the entire enrichment object are returned
unchanged. -/
theorem computeServerFields_frame (server : MCPServer) :
    (computeServerFields server).name = server.name
    ∧ (computeServerFields server).description = server.description
    ∧ (computeServerFields server).version = server.version
    ∧ (computeServerFields server).repository? = server.repository?
    ∧ (computeServerFields server).packages = server.packages
    ∧ (computeServerFields server).remotes = server.remotes
    ∧ (computeServerFields server).status = server.status
    ∧ (computeServerFields server).publishedAt = server.publishedAt
    ∧ (computeServerFields server).updatedAt = server.updatedAt
    ∧ (computeServerFields server).isLatest = server.isLatest
    ∧ (computeServerFields server).enrichment = server.enrichment := by
  refine ⟨rfl, rfl, rfl, rfl, rfl, rfl, rfl, rfl, rfl, rfl, rfl⟩

/-! ## Resilient fetch (`scripts/utils/fetch.ts`, `fetchWithRetry`)

The network is abstracted as a map from the (1-indexed) attempt number to
that attempt's outcome: either a received HTTP response or a thrown error.
`retriable` is `isRetriableError`.  The returned trace records the result,
the timeout installed for each attempt actually made, and the backoff
sleeps performed between attempts. -/

inductive AttemptOutcome (ε ρ : Type) where
  | ok (r : ρ)
  | throws (e : ε)
deriving DecidableEq, Repr

structure FetchTrace (ε ρ : Type) where
  /-- `Except.error (some e)` is the loop re-throwing `e`; `Except.error none`
  is the synthetic `Error("Max retries exceeded")` reachable only when the
  loop body never runs (`maxRetries = 0`). -/
  result : Except (Option ε) ρ
  timeouts : List Nat
  sleeps : List Nat
deriving Repr

def fetchLoop {ε ρ : Type} (retriable : ε → Bool)
    (outcomes : Nat → AttemptOutcome ε ρ) (maxRetries baseTimeout : Nat) :
    Nat → Nat → FetchTrace ε ρ
  | _, 0 => { result := Except.error none, timeouts := [], sleeps := [] }
  | attempt, fuel + 1 =>
    let timeout := baseTimeout * attempt
    match outcomes attempt with
    | AttemptOutcome.ok r =>
      { result := Except.ok r, timeouts := [timeout], sleeps := [] }
    | AttemptOutcome.throws e =>
      if !retriable e || attempt == maxRetries then
        { result := Except.error (some e), timeouts := [timeout], sleeps := [] }
      else
        let rest :=
          fetchLoop retriable outcomes maxRetries baseTimeout (attempt + 1) fuel
        { result := rest.result
          timeouts := timeout :: rest.timeouts
          sleeps := 1000 * attempt :: rest.sleeps }

def fetchWithRetry {ε ρ : Type} (retriable : ε → Bool)
    (outcomes : Nat → AttemptOutcome ε ρ) (maxRetries : Nat := 3)
    (baseTimeout : Nat := 10000) : FetchTrace ε ρ :=
  fetchLoop retriable outcomes maxRetries baseTimeout 1 maxRetries

theorem fetchLoop_ok {ε ρ : Type} (retriable : ε → Bool)
    (outcomes : Nat → AttemptOutcome ε ρ) (maxRetries baseTimeout k : Nat)
    (r : ρ) (hk : k ≤ maxRetries) (hok : outcomes k = AttemptOutcome.ok r) :
    ∀ fuel attempt, attempt + fuel = maxRetries + 1 → attempt ≤ k →
    (∀ i, attempt ≤ i → i < k →
      ∃ e, outcomes i = AttemptOutcome.throws e ∧ retriable e = true) →
    fetchLoop retriable outcomes maxRetries baseTimeout attempt fuel =
      { result := Except.ok r
        timeouts :=
          (List.range' attempt (k + 1 - attempt)).map (fun i => baseTimeout * i)
        sleeps :=
          (List.range' attempt (k - attempt)).map (fun i => 1000 * i) } := by
  intro fuel
  induction fuel with
  | zero => intro attempt hsum hak _; omega
  | succ fuel ih =>
    intro attempt hsum hak hpre
    by_cases heq : attempt = k
    · subst heq
      have h1 : attempt + 1 - attempt = 1 := by omega
      have h2 : attempt - attempt = 0 := by omega
      simp [fetchLoop, hok, h1, h2, List.range']
    · have hlt : attempt < k := lt_of_le_of_ne hak heq
      obtain ⟨e, he, hre⟩ := hpre attempt le_rfl hlt
      have hne : (attempt == maxRetries) = false := by
        simp only [beq_eq_false_iff_ne, ne_eq]
        omega
      have ihres := ih (attempt + 1) (by omega) (by omega)
        (fun i h1 h2 => hpre i (by omega) h2)
      have ht : k + 1 - attempt = (k + 1 - (attempt + 1)) + 1 := by omega
      have hs : k - attempt = (k - (attempt + 1)) + 1 := by omega
      rw [fetchLoop]
      simp only [he, hre, Bool.not_true, Bool.false_or, hne, if_false]
      rw [ihres, ht, hs]
      simp [List.range']

theorem fetchLoop_throw {ε ρ : Type} (retriable : ε → Bool)
    (outcomes : Nat → AttemptOutcome ε ρ) (maxRetries baseTimeout k : Nat)
    (e : ε) (hk : k ≤ maxRetries) (hth : outcomes k = AttemptOutcome.throws e)
    (hterm : retriable e = false ∨ k = maxRetries) :
    ∀ fuel attempt, attempt + fuel = maxRetries + 1 → attempt ≤ k →
    (∀ i, attempt ≤ i → i < k →
      ∃ e', outcomes i = AttemptOutcome.throws e' ∧ retriable e' = true) →
    fetchLoop retriable outcomes maxRetries baseTimeout attempt fuel =
      { result := Except.error (some e)
        timeouts :=
          (List.range' attempt (k + 1 - attempt)).map (fun i => baseTimeout * i)
        sleeps :=
          (List.range' attempt (k - attempt)).map (fun i => 1000 * i) } := by
  intro fuel
  induction fuel with
  | zero => intro attempt hsum hak _; omega
  | succ fuel ih =>
    intro attempt hsum hak hpre
    by_cases heq : attempt = k
    · subst heq
      have hcond : (!retriable e || (attempt == maxRetries)) = true := by
        rcases hterm with h | h
        · simp [h]
        · simp [h]
      have h1 : attempt + 1 - attempt = 1 := by omega
      have h2 : attempt - attempt = 0 := by omega
      rw [fetchLoop]
      simp only [hth, hcond, if_true, h1, h2, List.range']
      simp
    · have hlt : attempt < k := lt_of_le_of_ne hak heq
      obtain ⟨e', he', hre'⟩ := hpre attempt le_rfl hlt
      have hne : (attempt == maxRetries) = false := by
        simp only [beq_eq_false_iff_ne, ne_eq]
        omega
      have ihres := ih (attempt + 1) (by omega) (by omega)
        (fun i h1 h2 => hpre i (by omega) h2)
      have ht : k + 1 - attempt = (k + 1 - (attempt + 1)) + 1 := by omega
      have hs : k - attempt = (k - (attempt + 1)) + 1 := by omega
      rw [fetchLoop]
      simp only [he', hre', Bool.not_true, Bool.false_or, hne, if_false]
      rw [ihres, ht, hs]
      simp [List.range']

/-- C1: an attempt that receives an HTTP response has that response returned
immediately (`k` attempts made, `k - 1` backoff sleeps of `1000·i` ms,
attempt `i` using timeout `baseTimeout·i`); a non-retriable thrown error is
re-thrown immediately, and exhausting `maxRetries` with a retriable error
re-throws the last error (`some e`, never the synthetic `none`). -/
theorem fetchWithRetry_policy {ε ρ : Type} (retriable : ε → Bool)
    (outcomes : Nat → AttemptOutcome ε ρ) (maxRetries baseTimeout : Nat) :
    (∀ k r, 1 ≤ k → k ≤ maxRetries →
      (∀ i, 1 ≤ i → i < k →
        ∃ e, outcomes i = AttemptOutcome.throws e ∧ retriable e = true) →
      outcomes k = AttemptOutcome.ok r →
      fetchWithRetry retriable outcomes maxRetries baseTimeout =
        { result := Except.ok r
          timeouts := (List.range' 1 k).map (fun i => baseTimeout * i)
          sleeps := (List.range' 1 (k - 1)).map (fun i => 1000 * i) })
    ∧ (∀ k e, 1 ≤ k → k ≤ maxRetries →
      (∀ i, 1 ≤ i → i < k →
        ∃ e', outcomes i = AttemptOutcome.throws e' ∧ retriable e' = true) →
      outcomes k = AttemptOutcome.throws e →
      (retriable e = false ∨ k = maxRetries) →
      fetchWithRetry retriable outcomes maxRetries baseTimeout =
        { result := Except.error (some e)
          timeouts := (List.range' 1 k).map (fun i => baseTimeout * i)
          sleeps := (List.range' 1 (k - 1)).map (fun i => 1000 * i) }) := by
  constructor
  · intro k r hk1 hkm hpre hok
    have := fetchLoop_ok retriable outcomes maxRetries baseTimeout k r hkm hok
      maxRetries 1 (by omega) hk1 (fun i h1 h2 => hpre i h1 h2)
    rw [fetchWithRetry, this]
    have h1 : k + 1 - 1 = k := by omega
    rw [h1]
  · intro k e hk1 hkm hpre hth hterm
    have := fetchLoop_throw retriable outcomes maxRetries baseTimeout k e hkm
      hth hterm maxRetries 1 (by omega) hk1 (fun i h1 h2 => hpre i h1 h2)
    rw [fetchWithRetry, this]
    have h1 : k + 1 - 1 = k := by omega
    rw [h1]

/-- Concrete attempt outcomes: attempts 1 and 2 throw (errors `1` and `2`),
attempt 3 receives response `42`. -/
def retryOutcomesW : Nat → AttemptOutcome Nat Nat :=
  fun n => if n = 3 then AttemptOutcome.ok 42 else AttemptOutcome.throws n

theorem fetchWithRetry_policy_witness :
    fetchWithRetry (fun _ => true) retryOutcomesW 3 10000 =
      { result := Except.ok 42
        timeouts := [10000, 20000, 30000]
        sleeps := [1000, 2000] } := by
  have h := (fetchWithRetry_policy (fun _ => true) retryOutcomesW 3 10000).1
    3 42 (by omega) (by omega)
    (fun i h1 h2 => ⟨i, by simp [retryOutcomesW, Nat.ne_of_lt h2], rfl⟩)
    (by simp [retryOutcomesW])
  rw [h]
  rfl

/-! ## Enrichment coordinator (`scripts/enrichers/index.ts`)

Each source enricher's behaviour for a given record is abstracted as its
outcome: `Except.error` models a thrown error (caught and logged by the
coordinator), `Except.ok none` an absent result, `Except.ok (some d)` a
returned partial enrichment `{ <source>: d }`.  `EnrichEnv` carries the
run's clock (`Date.now()`, `new Date().toISOString()`, and
`new Date(s).getTime()` for parsing stored timestamps) and the per-record
source outcomes. -/

structure SourceOutcomes where
  github : Except Unit (Option GitHubEnrichment)
  npm : Except Unit (Option NpmEnrichment)
  pypi : Except Unit (Option PyPiEnrichment)
  nuget : Except Unit (Option NuGetEnrichment)
  docker : Except Unit (Option DockerEnrichment)
  mcpb : Except Unit (Option McpbEnrichment)

/-- All six sources return absent. -/
def allAbsent : SourceOutcomes :=
  { github := Except.ok none, npm := Except.ok none, pypi := Except.ok none
    nuget := Except.ok none, docker := Except.ok none, mcpb := Except.ok none }

structure EnrichEnv where
  nowMs : Int
  nowIso : String
  parseMs : String → Int
  outcomes : MCPServer → SourceOutcomes

structure EnrichmentOptions where
  delayMs : Nat
  concurrency : Nat
  skipIfFresh : Bool
  maxAge : Int

/-- `DEFAULT_OPTIONS` of the coordinator. -/
def DEFAULT_OPTIONS : EnrichmentOptions :=
  { delayMs := 100, concurrency := 3, skipIfFresh := true
    maxAge := 24 * 60 * 60 * 1000 }

def isEnrichmentFresh (env : EnrichEnv) (server : MCPServer) (maxAge : Int) :
    Bool :=
  let lastEnriched := server.enrichment.lastEnrichedAt
  if lastEnriched = "" then false
  else decide (env.nowMs - env.parseMs lastEnriched < maxAge)

/-- `Object.assign(enrichment, result)` for one source's non-absent,
non-thrown result (each source enricher returns `{ <source>: data } | null`,
so only that source's slot is written). -/
def applyGithub (e : Enrichment) (o : Except Unit (Option GitHubEnrichment)) :
    Enrichment :=
  match o with
  | Except.ok (some d) => { e with github? := some d }
  | _ => e

def applyNpm (e : Enrichment) (o : Except Unit (Option NpmEnrichment)) :
    Enrichment :=
  match o with
  | Except.ok (some d) => { e with npm? := some d }
  | _ => e

def applyPypi (e : Enrichment) (o : Except Unit (Option PyPiEnrichment)) :
    Enrichment :=
  match o with
  | Except.ok (some d) => { e with pypi? := some d }
  | _ => e

def applyNuget (e : Enrichment) (o : Except Unit (Option NuGetEnrichment)) :
    Enrichment :=
  match o with
  | Except.ok (some d) => { e with nuget? := some d }
  | _ => e

def applyDocker (e : Enrichment) (o : Except Unit (Option DockerEnrichment)) :
    Enrichment :=
  match o with
  | Except.ok (some d) => { e with docker? := some d }
  | _ => e

def applyMcpb (e : Enrichment) (o : Except Unit (Option McpbEnrichment)) :
    Enrichment :=
  match o with
  | Except.ok (some d) => { e with mcpb? := some d }
  | _ => e

structure EnrichResult where
  server : MCPServer
  /-- number of source enrichers invoked for this record in this run -/
  sourceCalls : Nat

def enrichServer (env : EnrichEnv) (opts : EnrichmentOptions)
    (server : MCPServer) : EnrichResult :=
  if opts.skipIfFresh && isEnrichmentFresh env server opts.maxAge then
    { server := server, sourceCalls := 0 }
  else
    let o := env.outcomes server
    let enrichment := { server.enrichment with lastEnrichedAt := env.nowIso }
    let enrichment := applyGithub enrichment o.github
    let enrichment := applyNpm enrichment o.npm
    let enrichment := applyPypi enrichment o.pypi
    let enrichment := applyNuget enrichment o.nuget
    let enrichment := applyDocker enrichment o.docker
    let enrichment := applyMcpb enrichment o.mcpb
    { server := { server with enrichment := enrichment }, sourceCalls := 6 }

structure EnrichManyResult where
  servers : List MCPServer
  sourceCalls : Nat

/-- The batching loop of `enrichServers`: splice `concurrency` records off
the queue, enrich them all, repeat.  The fuel argument (initially the queue
length) only cuts off the infinite loop JavaScript would enter with
`concurrency = 0`; with `concurrency ≥ 1` it is never exhausted. -/
def enrichServersGo (env : EnrichEnv) (opts : EnrichmentOptions) :
    Nat → List MCPServer → EnrichManyResult
  | 0, _ => { servers := [], sourceCalls := 0 }
  | _, [] => { servers := [], sourceCalls := 0 }
  | fuel + 1, queue =>
    let batchResults := (queue.take opts.concurrency).map (enrichServer env opts)
    let rest := enrichServersGo env opts fuel (queue.drop opts.concurrency)
    { servers := batchResults.map (·.server) ++ rest.servers
      sourceCalls := (batchResults.map (·.sourceCalls)).sum + rest.sourceCalls }

def enrichServers (env : EnrichEnv) (opts : EnrichmentOptions)
    (servers : List MCPServer) : EnrichManyResult :=
  enrichServersGo env opts servers.length servers

theorem enrichServersGo_eq_map (env : EnrichEnv) (opts : EnrichmentOptions)
    (hc : 1 ≤ opts.concurrency) :
    ∀ fuel queue, queue.length ≤ fuel →
    enrichServersGo env opts fuel queue =
      { servers := queue.map (fun s => (enrichServer env opts s).server)
        sourceCalls :=
          (queue.map (fun s => (enrichServer env opts s).sourceCalls)).sum } := by
  intro fuel
  induction fuel with
  | zero =>
    intro queue hq
    have : queue = [] := List.length_eq_zero.mp (Nat.le_zero.mp hq)
    subst this
    simp [enrichServersGo]
  | succ fuel ih =>
    intro queue hq
    match queue with
    | [] => simp [enrichServersGo]
    | q :: qs =>
      have hdrop : ((q :: qs).drop opts.concurrency).length ≤ fuel := by
        rw [List.length_drop]
        simp only [List.length_cons] at hq ⊢
        omega
      rw [enrichServersGo]
      · rw [ih _ hdrop]
        simp only [List.map_map, Function.comp_def, EnrichManyResult.mk.injEq]
        refine ⟨?_, ?_⟩
        · rw [← List.map_append, List.take_append_drop]
        · rw [← List.sum_append, ← List.map_append, List.take_append_drop]
      · simp

/-- `enrichServers` with positive concurrency enriches each record in order. -/
theorem enrichServers_eq_map (env : EnrichEnv) (opts : EnrichmentOptions)
    (hc : 1 ≤ opts.concurrency) (servers : List MCPServer) :
    enrichServers env opts servers =
      { servers := servers.map (fun s => (enrichServer env opts s).server)
        sourceCalls :=
          (servers.map (fun s => (enrichServer env opts s).sourceCalls)).sum } :=
  enrichServersGo_eq_map env opts hc servers.length servers le_rfl

theorem applyGithub_lastEnrichedAt (e : Enrichment)
    (o : Except Unit (Option GitHubEnrichment)) :
    (applyGithub e o).lastEnrichedAt = e.lastEnrichedAt := by
  cases o with
  | error e' => rfl
  | ok v => cases v <;> rfl

theorem applyNpm_lastEnrichedAt (e : Enrichment)
    (o : Except Unit (Option NpmEnrichment)) :
    (applyNpm e o).lastEnrichedAt = e.lastEnrichedAt := by
  cases o with
  | error e' => rfl
  | ok v => cases v <;> rfl

theorem applyPypi_lastEnrichedAt (e : Enrichment)
    (o : Except Unit (Option PyPiEnrichment)) :
    (applyPypi e o).lastEnrichedAt = e.lastEnrichedAt := by
  cases o with
  | error e' => rfl
  | ok v => cases v <;> rfl

theorem applyNuget_lastEnrichedAt (e : Enrichment)
    (o : Except Unit (Option NuGetEnrichment)) :
    (applyNuget e o).lastEnrichedAt = e.lastEnrichedAt := by
  cases o with
  | error e' => rfl
  | ok v => cases v <;> rfl

theorem applyDocker_lastEnrichedAt (e : Enrichment)
    (o : Except Unit (Option DockerEnrichment)) :
    (applyDocker e o).lastEnrichedAt = e.lastEnrichedAt := by
  cases o with
  | error e' => rfl
  | ok v => cases v <;> rfl

theorem applyMcpb_lastEnrichedAt (e : Enrichment)
    (o : Except Unit (Option McpbEnrichment)) :
    (applyMcpb e o).lastEnrichedAt = e.lastEnrichedAt := by
  cases o with
  | error e' => rfl
  | ok v => cases v <;> rfl

/-- A record that is not skipped gets `lastEnrichedAt = now` and all six
source enrichers invoked, whatever the sources return or throw. -/
theorem enrichServer_not_fresh_stamp (env : EnrichEnv)
    (opts : EnrichmentOptions) (server : MCPServer)
    (h : (opts.skipIfFresh && isEnrichmentFresh env server opts.maxAge)
          = false) :
    (enrichServer env opts server).server.enrichment.lastEnrichedAt =
        env.nowIso
    ∧ (enrichServer env opts server).sourceCalls = 6 := by
  rw [enrichServer]
  simp only [h, Bool.false_eq_true, if_false]
  refine ⟨?_, trivial⟩
  simp [applyMcpb_lastEnrichedAt, applyDocker_lastEnrichedAt,
    applyNuget_lastEnrichedAt, applyPypi_lastEnrichedAt,
    applyNpm_lastEnrichedAt, applyGithub_lastEnrichedAt]

/-- C3: a record with a non-empty `lastEnrichedAt` younger than `maxAge` is,
under `skipIfFresh`, returned unchanged with zero source-enricher
invocations; consequently, a second coordinator run right after a first
one (which stamped a non-empty timestamp) is a no-op with zero source
calls, and `enrichServers` over a list of fresh records returns the list
unchanged with zero source calls in total. -/
theorem enrichServer_freshSkip_idempotent (env₁ env₂ : EnrichEnv)
    (opts : EnrichmentOptions) (server : MCPServer)
    (servers : List MCPServer) (hskip : opts.skipIfFresh = true) :
    (server.enrichment.lastEnrichedAt ≠ "" →
      env₁.nowMs - env₁.parseMs server.enrichment.lastEnrichedAt <
        opts.maxAge →
      enrichServer env₁ opts server = { server := server, sourceCalls := 0 })
    ∧ (env₁.nowIso ≠ "" →
      env₂.nowMs - env₂.parseMs
          (enrichServer env₁ opts server).server.enrichment.lastEnrichedAt <
        opts.maxAge →
      enrichServer env₂ opts (enrichServer env₁ opts server).server =
        { server := (enrichServer env₁ opts server).server
          sourceCalls := 0 })
    ∧ ((∀ s ∈ servers, s.enrichment.lastEnrichedAt ≠ "" ∧
          env₁.nowMs - env₁.parseMs s.enrichment.lastEnrichedAt <
            opts.maxAge) →
      1 ≤ opts.concurrency →
      enrichServers env₁ opts servers =
        { servers := servers, sourceCalls := 0 }) := by
  have part1 : ∀ (env : EnrichEnv) (s : MCPServer),
      s.enrichment.lastEnrichedAt ≠ "" →
      env.nowMs - env.parseMs s.enrichment.lastEnrichedAt < opts.maxAge →
      enrichServer env opts s = { server := s, sourceCalls := 0 } := by
    intro env s hne hfresh
    have hf : isEnrichmentFresh env s opts.maxAge = true := by
      simp [isEnrichmentFresh, hne, hfresh]
    simp [enrichServer, hskip, hf]
  refine ⟨part1 env₁ server, ?_, ?_⟩
  · intro hiso hfresh₂
    have hstamp :
        (enrichServer env₁ opts server).server.enrichment.lastEnrichedAt ≠
          "" := by
      by_cases hcond :
          (opts.skipIfFresh && isEnrichmentFresh env₁ server opts.maxAge)
            = true
      · have hf : isEnrichmentFresh env₁ server opts.maxAge = true := by
          simpa [hskip] using hcond
        have hne : server.enrichment.lastEnrichedAt ≠ "" := by
          intro hemp
          rw [isEnrichmentFresh] at hf
          simp [hemp] at hf
        have hres : enrichServer env₁ opts server =
            { server := server, sourceCalls := 0 } := by
          simp [enrichServer, hcond]
        rw [hres]
        exact hne
      · rw [(enrichServer_not_fresh_stamp env₁ opts server
          (Bool.eq_false_iff.mpr hcond)).1]
        exact hiso
    exact part1 env₂ _ hstamp hfresh₂
  · intro hall hc
    have heach : ∀ s ∈ servers,
        enrichServer env₁ opts s = { server := s, sourceCalls := 0 } :=
      fun s hs => part1 env₁ s (hall s hs).1 (hall s hs).2
    rw [enrichServers_eq_map env₁ opts hc]
    have h1 : servers.map (fun s => (enrichServer env₁ opts s).server) =
        servers := by
      conv_rhs => rw [← List.map_id servers]
      exact List.map_congr_left (fun s hs => by rw [heach s hs]; rfl)
    have h2 : (servers.map
        (fun s => (enrichServer env₁ opts s).sourceCalls)).sum = 0 := by
      rw [List.sum_eq_zero]
      intro x hx
      rcases List.mem_map.mp hx with ⟨s, hs, rfl⟩
      rw [heach s hs]
    rw [h1, h2]

/-- The options `sync` passes to the coordinator (`delayMs: 200`,
`concurrency: 2`, `skipIfFresh: !doFullSync`, `maxAge: 24h`). -/
def syncOptions (doFullSync : Bool) : EnrichmentOptions :=
  { delayMs := 200, concurrency := 2, skipIfFresh := !doFullSync
    maxAge := 24 * 60 * 60 * 1000 }

def envW1 : EnrichEnv :=
  { nowMs := 100, nowIso := "t1", parseMs := fun _ => 50
    outcomes := fun _ => allAbsent }

def serverFreshW : MCPServer :=
  { mkServer "w" with enrichment := { lastEnrichedAt := "t0" } }

theorem enrichServer_freshSkip_idempotent_witness :
    enrichServer envW1 (syncOptions false) serverFreshW =
      { server := serverFreshW, sourceCalls := 0 } :=
  (enrichServer_freshSkip_idempotent envW1 envW1 (syncOptions false)
    serverFreshW [] rfl).1 (by decide) (by decide)

/-- C9: a record selected for enrichment (not skipped as fresh) comes back
with `enrichment.lastEnrichedAt` equal to the run's timestamp — whatever
each source enricher returned or threw — hence non-empty whenever the
run's timestamp is. -/
theorem enrichServer_lastEnrichedAt_now (env : EnrichEnv)
    (opts : EnrichmentOptions) (server : MCPServer)
    (h : (opts.skipIfFresh && isEnrichmentFresh env server opts.maxAge)
          = false) :
    (enrichServer env opts server).server.enrichment.lastEnrichedAt =
        env.nowIso
    ∧ (env.nowIso ≠ "" →
      (enrichServer env opts server).server.enrichment.lastEnrichedAt ≠
        "") := by
  have hs := (enrichServer_not_fresh_stamp env opts server h).1
  exact ⟨hs, fun hiso => hs ▸ hiso⟩

theorem enrichServer_lastEnrichedAt_now_witness :
    (enrichServer envW1 (syncOptions false) (mkServer "w")).server.enrichment.lastEnrichedAt = "t1" :=
  (enrichServer_lastEnrichedAt_now envW1 (syncOptions false) (mkServer "w")
    (by decide)).1

/-! ## npm enricher (`scripts/enrichers/npm.ts`)

Each HTTP sub-call is abstracted as an `HttpOutcome`: either the fetch call
itself throws (`fetchWithRetry` exhausting its retries on a network error,
re-throwing a non-retriable error, …) or a response arrives with a status
and a body whose JSON parse either succeeds or throws. -/

inductive HttpOutcome (ε β : Type) where
  | throws (e : ε)
  | resp (status : Nat) (body : Except ε β)
deriving Repr

/-- `response.ok`: status in the inclusive range 200–299. -/
def responseOk (status : Nat) : Bool :=
  decide (200 ≤ status) && decide (status ≤ 299)

structure NpmDistTags where
  latest : String
deriving DecidableEq, Repr

structure NpmPackageResponse where
  name : String
  /-- `dist-tags` (checked defensively by the code despite the type) -/
  distTags? : Option NpmDistTags
  /-- the `time` record, version → publish timestamp ("modified" included) -/
  time : List (String × String)
  maintainers? : Option (List String) := none
  homepage? : Option String := none
  keywords? : Option (List String) := none
  /-- the `versions` record, version → optional dependencies record
  (modelled as the list of dependency names) -/
  versions : List (String × Option (List String))
deriving DecidableEq, Repr

structure NpmDownloadsResponse where
  downloads? : Option Nat
deriving DecidableEq, Repr

/-- Record-field access on a JSON object modelled as an association list. -/
def recordGet (m : List (String × String)) (k : String) : Option String :=
  (m.find? (fun p => p.1 == k)).map (·.2)

/-- `findNpmPackage`: first package with registry type `npm`;
`?.identifier || null` makes an empty identifier fall back to `null`. -/
def findNpmPackage (server : MCPServer) : Option String :=
  match server.packages.find? (fun pkg => pkg.registryType == RegistryType.npm)
    with
  | some pkg => if pkg.identifier = "" then none else some pkg.identifier
  | none => none

def fetchPackageData {ε : Type} (o : HttpOutcome ε NpmPackageResponse) :
    Except ε (Option NpmPackageResponse) :=
  match o with
  | HttpOutcome.throws e => Except.error e
  | HttpOutcome.resp status body =>
    if status == 404 then Except.ok none
    else if !responseOk status then Except.ok none
    else
      match body with
      | Except.ok b => Except.ok (some b)
      | Except.error e => Except.error e

def fetchDownloads {ε : Type} (o : HttpOutcome ε NpmDownloadsResponse) :
    Except ε Nat :=
  match o with
  | HttpOutcome.throws e => Except.error e
  | HttpOutcome.resp status body =>
    if !responseOk status then Except.ok 0
    else
      match body with
      | Except.ok d =>
        Except.ok (match d.downloads? with | some n => n | none => 0)
      | Except.error e => Except.error e

/-- `enrichNpm`: `Except.ok none` is the JavaScript `null` return,
`Except.ok (some d)` is `{ npm: d }`, `Except.error e` is a thrown error
reaching the caller.  The three sub-calls run under `Promise.all`; a
rejection of any of them rejects the whole (modelled in index order). -/
def enrichNpm {ε : Type} (server : MCPServer)
    (pkgOutcome : HttpOutcome ε NpmPackageResponse)
    (weeklyOutcome monthlyOutcome : HttpOutcome ε NpmDownloadsResponse) :
    Except ε (Option NpmEnrichment) :=
  match findNpmPackage server with
  | none => Except.ok none
  | some _packageName => do
    let packageData? ← fetchPackageData pkgOutcome
    let weeklyDownloads ← fetchDownloads weeklyOutcome
    let monthlyDownloads ← fetchDownloads monthlyOutcome
    match packageData? with
    | none => pure none
    | some pd =>
      match pd.distTags? with
      | none => pure none
      | some dt =>
        if dt.latest = "" then pure none
        else
          let latestVersion := dt.latest
          let dependencyCount :=
            match pd.versions.find? (fun p => p.1 == latestVersion) with
            | some (_, some deps) => deps.length
            | _ => 0
          let lastPublished :=
            match recordGet pd.time latestVersion with
            | some s =>
              if s ≠ "" then s else (recordGet pd.time "modified").getD ""
            | none => (recordGet pd.time "modified").getD ""
          pure (some
            { weeklyDownloads := weeklyDownloads
              monthlyDownloads := monthlyDownloads
              latestVersion := latestVersion
              dependencies := dependencyCount
              lastPublished := lastPublished
              maintainers := pd.maintainers?.getD []
              homepage? := pd.homepage?
              keywords := pd.keywords?.getD [] })

def npmServerW : MCPServer :=
  { mkServer "w" with
    packages := [{ registryType := RegistryType.npm, identifier := "pkg" }] }

/-- C5 (counterexample): with an npm package present, a thrown network-level
error in the metadata sub-call (e.g. `fetchWithRetry` exhausting its
retries) propagates out of `enrichNpm` as a thrown error — the enricher
does *not* turn every fetch failure into an absent result. -/
theorem enrichNpm_throws_cex :
    enrichNpm npmServerW (HttpOutcome.throws 7)
      (HttpOutcome.resp 200 (Except.ok { downloads? := some 1 }))
      (HttpOutcome.resp 200 (Except.ok { downloads? := some 2 })) =
      Except.error 7 := by
  rfl

/-- C5 (amended): a missing identifier and any non-OK HTTP status yield an
absent result, and when every sub-call yields a response whose body parses,
`enrichNpm` never throws; but a thrown network-level error (or a body-parse
failure) in a sub-call propagates to the caller as an exception (the
coordinator catches and logs it). -/
theorem enrichNpm_error_behaviour {ε : Type} (server : MCPServer) :
    (∀ (o₁ : HttpOutcome ε NpmPackageResponse) o₂ o₃,
      findNpmPackage server = none →
      enrichNpm server o₁ o₂ o₃ = Except.ok none)
    ∧ (∀ (p : String) (st : Nat) (body : Except ε NpmPackageResponse)
        (o₂ o₃ : HttpOutcome ε NpmDownloadsResponse) (w m : Nat),
      findNpmPackage server = some p →
      ((st == 404) = true ∨ responseOk st = false) →
      fetchDownloads o₂ = Except.ok w →
      fetchDownloads o₃ = Except.ok m →
      enrichNpm server (HttpOutcome.resp st body) o₂ o₃ = Except.ok none)
    ∧ (∀ (o₁ : HttpOutcome ε NpmPackageResponse) o₂ o₃ pd? (w m : Nat),
      fetchPackageData o₁ = Except.ok pd? →
      fetchDownloads o₂ = Except.ok w →
      fetchDownloads o₃ = Except.ok m →
      ∃ res, enrichNpm server o₁ o₂ o₃ = Except.ok res)
    ∧ (∀ (e : ε) (p : String) o₂ o₃,
      findNpmPackage server = some p →
      enrichNpm server (HttpOutcome.throws e) o₂ o₃ = Except.error e) := by
  refine ⟨?_, ?_, ?_, ?_⟩
  · intro o₁ o₂ o₃ h
    simp [enrichNpm, h]
  · intro p st body o₂ o₃ w m hp hst hw hm
    have h1 : fetchPackageData (HttpOutcome.resp st body) =
        (Except.ok none : Except ε (Option NpmPackageResponse)) := by
      rcases hst with h404 | hok
      · simp [fetchPackageData, h404]
      · by_cases h404 : (st == 404) = true <;>
          simp [fetchPackageData, h404, hok]
    simp [enrichNpm, hp, h1, hw, hm, Bind.bind, Except.bind, Pure.pure,
      Except.pure]
  · intro o₁ o₂ o₃ pd? w m h1 hw hm
    match hfind : findNpmPackage server with
    | none => exact ⟨none, by simp [enrichNpm, hfind]⟩
    | some p =>
      match pd? with
      | none =>
        exact ⟨none, by
          simp [enrichNpm, hfind, h1, hw, hm, Bind.bind, Except.bind,
            Pure.pure, Except.pure]⟩
      | some pd =>
        match hdt : pd.distTags? with
        | none =>
          exact ⟨none, by
            simp [enrichNpm, hfind, h1, hw, hm, hdt, Bind.bind, Except.bind,
              Pure.pure, Except.pure]⟩
        | some dt =>
          by_cases hl : dt.latest = ""
          · exact ⟨none, by
              simp [enrichNpm, hfind, h1, hw, hm, hdt, hl, Bind.bind,
                Except.bind, Pure.pure, Except.pure]⟩
          · exact ⟨_, by
              simp only [enrichNpm, hfind, h1, hw, hm, hdt, Bind.bind,
                Except.bind, Pure.pure, Except.pure]
              rw [if_neg hl]⟩
  · intro e p o₂ o₃ hp
    simp [enrichNpm, hp, fetchPackageData, Bind.bind, Except.bind]

theorem enrichNpm_error_behaviour_witness :
    enrichNpm npmServerW
      (HttpOutcome.resp 404 (Except.error 0))
      (HttpOutcome.resp 200 (Except.ok { downloads? := some 1 }))
      (HttpOutcome.resp 200 (Except.ok { downloads? := some 2 })) =
      Except.ok none :=
  (enrichNpm_error_behaviour npmServerW).2.1 "pkg" 404 (Except.error 0) _ _ 1 2
    (by decide) (Or.inl (by decide)) rfl rfl

/-! ## Registry client (`scripts/registry.ts`)

The paginated endpoint is abstracted as `fetchPage : cursor → response`.
The fuel bounds the do/while loop (the loop itself is unbounded if the
registry keeps returning cursors); `fetchUpdatedServers` is the same loop
with the `updated_since` filter baked into `fetchPage`. -/

structure RegistryMetadata where
  count : Nat
  nextCursor? : Option String
deriving DecidableEq, Repr

structure MCPRegistryResponse where
  servers : List MCPRegistryEntry
  metadata : RegistryMetadata
deriving DecidableEq, Repr

/-- JavaScript truthiness of the `cursor` loop variable (`undefined` and
`""` are falsy). -/
def cursorTruthy : Option String → Bool
  | none => false
  | some s => decide (s ≠ "")

def fetchAllServersGo (fetchPage : Option String → MCPRegistryResponse) :
    Nat → Option String → List MCPRegistryEntry
  | 0, _ => []
  | fuel + 1, cursor =>
    let response := fetchPage cursor
    let latestServers := response.servers.filter (fun e => e.meta.isLatest)
    if cursorTruthy response.metadata.nextCursor? then
      latestServers ++
        fetchAllServersGo fetchPage fuel response.metadata.nextCursor?
    else
      latestServers

def fetchAllServers (fetchPage : Option String → MCPRegistryResponse)
    (fuel : Nat) : List MCPRegistryEntry :=
  fetchAllServersGo fetchPage fuel none

theorem fetchAllServersGo_isLatest
    (fetchPage : Option String → MCPRegistryResponse) :
    ∀ (fuel : Nat) (cursor : Option String)
      (e : MCPRegistryEntry), e ∈ fetchAllServersGo fetchPage fuel cursor →
      e.meta.isLatest = true := by
  intro fuel
  induction fuel with
  | zero => intro cursor e he; simp [fetchAllServersGo] at he
  | succ fuel ih =>
    intro cursor e he
    rw [fetchAllServersGo] at he
    by_cases hcur :
        cursorTruthy (fetchPage cursor).metadata.nextCursor? = true
    · rw [if_pos hcur, List.mem_append] at he
      rcases he with he | he
      · exact (List.mem_filter.mp he).2
      · exact ih _ e he
    · rw [if_neg hcur] at he
      exact (List.mem_filter.mp he).2

/-- `fetchUpdatedServers(since)` delegates to the same paginated loop; the
`updated_since` lower bound only changes the request URL, i.e. the page
function. -/
def fetchUpdatedServers (fetchPageSince : Option String → MCPRegistryResponse)
    (fuel : Nat) : List MCPRegistryEntry :=
  fetchAllServers fetchPageSince fuel

/-- C6: every entry returned by the paginated registry fetch — and hence by
`fetchUpdatedServers`, the same loop with the `updated_since` filter baked
into the page function — is flagged as the latest version of its server. -/
theorem fetchAllServers_isLatest
    (fetchPage fetchPageSince : Option String → MCPRegistryResponse)
    (fuel : Nat) (e : MCPRegistryEntry) :
    (e ∈ fetchAllServers fetchPage fuel → e.meta.isLatest = true)
    ∧ (e ∈ fetchUpdatedServers fetchPageSince fuel →
      e.meta.isLatest = true) :=
  ⟨fetchAllServersGo_isLatest fetchPage fuel none e,
    fetchAllServersGo_isLatest fetchPageSince fuel none e⟩

def registryEntryW : MCPRegistryEntry :=
  { server := { name := "a", description := "", version := "1" }
    meta := { status := ServerStatus.active, publishedAt := ""
              updatedAt := "", isLatest := true } }

def registryEntryOldW : MCPRegistryEntry :=
  { server := { name := "a", description := "", version := "0" }
    meta := { status := ServerStatus.active, publishedAt := ""
              updatedAt := "", isLatest := false } }

def fetchPageW : Option String → MCPRegistryResponse :=
  fun _ =>
    { servers := [registryEntryW, registryEntryOldW]
      metadata := { count := 2, nextCursor? := none } }

theorem fetchAllServers_isLatest_witness :
    registryEntryW.meta.isLatest = true :=
  (fetchAllServers_isLatest fetchPageW fetchPageW 1 registryEntryW).1
    (by decide)

/-! ## Name-keyed collections (`Map<string, MCPServer>` in `sync.ts`)

A JavaScript `Map` keyed by `server.name` is modelled as the
insertion-ordered list of its values: `set` replaces in place or appends,
`delete` removes, `get` finds by key.  `Array.from(map.values())` is then
the list itself. -/

def mapGet (m : List MCPServer) (name : String) : Option MCPServer :=
  m.find? (fun s => s.name == name)

def mapSet (m : List MCPServer) (s : MCPServer) : List MCPServer :=
  if m.any (fun t => t.name == s.name) then
    m.map (fun t => if t.name == s.name then s else t)
  else
    m ++ [s]

def mapDelete (m : List MCPServer) (name : String) : List MCPServer :=
  m.filter (fun s => s.name != name)

/-- Name-uniqueness invariant of a name-keyed collection. -/
def NamesNodup (m : List MCPServer) : Prop :=
  (m.map (fun s => s.name)).Nodup

theorem find?_replace_self (s : MCPServer) :
    ∀ m : List MCPServer, m.any (fun t => t.name == s.name) = true →
    (m.map (fun t => if t.name == s.name then s else t)).find?
        (fun t => t.name == s.name) = some s := by
  intro m
  induction m with
  | nil => intro h; simp at h
  | cons t ts ih =>
    intro h
    simp only [List.map_cons]
    by_cases ht : (t.name == s.name) = true
    · rw [List.find?_cons_of_pos _ (by rw [if_pos ht]; simp), if_pos ht]
    · have hts : ts.any (fun t => t.name == s.name) = true := by
        rcases List.any_eq_true.mp h with ⟨u, hu, hpu⟩
        rcases List.mem_cons.mp hu with rfl | hu'
        · exact absurd hpu ht
        · exact List.any_eq_true.mpr ⟨u, hu', hpu⟩
      rw [List.find?_cons_of_neg _ (by rw [if_neg ht]; simpa using ht)]
      exact ih hts

theorem mapGet_set_self (m : List MCPServer) (s : MCPServer) :
    mapGet (mapSet m s) s.name = some s := by
  rw [mapSet]
  by_cases hany : m.any (fun t => t.name == s.name) = true
  · rw [if_pos hany, mapGet]
    exact find?_replace_self s m hany
  · rw [if_neg hany, mapGet, List.find?_append]
    have hnone : m.find? (fun t => t.name == s.name) = none := by
      rw [List.find?_eq_none]
      intro x hx hpx
      exact hany (List.any_eq_true.mpr ⟨x, hx, hpx⟩)
    simp [hnone]

theorem find?_replace_other (s : MCPServer) (n : String) (h : s.name ≠ n) :
    ∀ m : List MCPServer,
    (m.map (fun t => if t.name == s.name then s else t)).find?
        (fun t => t.name == n) = m.find? (fun t => t.name == n) := by
  intro m
  induction m with
  | nil => rfl
  | cons t ts ih =>
    simp only [List.map_cons]
    by_cases ht : (t.name == s.name) = true
    · have h1 : t.name = s.name := by simpa using ht
      rw [List.find?_cons_of_neg _ (by rw [if_pos ht]; simp [h]),
        List.find?_cons_of_neg _ (by simp [h1, h])]
      exact ih
    · by_cases htn : (t.name == n) = true
      · rw [List.find?_cons_of_pos (p := fun (u : MCPServer) => u.name == n) _
          (by rw [if_neg ht]; exact htn),
          List.find?_cons_of_pos (p := fun (u : MCPServer) => u.name == n) _ htn, if_neg ht]
      · rw [List.find?_cons_of_neg _ (by rw [if_neg ht]; simpa using htn),
          List.find?_cons_of_neg _ (by simpa using htn)]
        exact ih

theorem mapGet_set_other (m : List MCPServer) (s : MCPServer) (n : String)
    (h : s.name ≠ n) : mapGet (mapSet m s) n = mapGet m n := by
  rw [mapSet]
  by_cases hany : m.any (fun t => t.name == s.name) = true
  · rw [if_pos hany, mapGet, find?_replace_other s n h, mapGet]
  · rw [if_neg hany, mapGet, List.find?_append]
    have h1 : List.find? (fun t => t.name == n) [s] = none := by
      simp [h]
    rw [h1, Option.or_none, mapGet]

theorem mapGet_delete_self (m : List MCPServer) (n : String) :
    mapGet (mapDelete m n) n = none := by
  rw [mapGet, mapDelete, List.find?_eq_none]
  intro x hx
  have := (List.mem_filter.mp hx).2
  simp only [bne_iff_ne, ne_eq] at this
  simp [this]

theorem mapGet_delete_other (m : List MCPServer) (n n' : String)
    (h : n ≠ n') : mapGet (mapDelete m n) n' = mapGet m n' := by
  rw [mapGet, mapDelete, mapGet]
  induction m with
  | nil => rfl
  | cons t ts ih =>
    by_cases htn : t.name = n
    · rw [List.filter_cons_of_neg (by simp [htn])]
      have h2 : ¬(t.name == n') = true := by simp [htn, h]
      rw [List.find?_cons_of_neg (p := fun (u : MCPServer) => u.name == n') _ h2]
      exact ih
    · rw [List.filter_cons_of_pos (by simp [htn])]
      by_cases ht' : (t.name == n') = true
      · rw [List.find?_cons_of_pos (p := fun (u : MCPServer) => u.name == n') _ ht',
          List.find?_cons_of_pos (p := fun (u : MCPServer) => u.name == n') _ ht']
      · rw [List.find?_cons_of_neg (p := fun (u : MCPServer) => u.name == n') _
          (by simpa using ht'),
          List.find?_cons_of_neg (p := fun (u : MCPServer) => u.name == n') _
          (by simpa using ht')]
        exact ih

theorem namesNodup_set (m : List MCPServer) (s : MCPServer)
    (h : NamesNodup m) : NamesNodup (mapSet m s) := by
  rw [mapSet]
  by_cases hany : m.any (fun t => t.name == s.name) = true
  · rw [if_pos hany]
    have heq : (m.map (fun t => if t.name == s.name then s else t)).map
        (fun t => t.name) = m.map (fun t => t.name) := by
      rw [List.map_map]
      refine List.map_congr_left (fun t _ => ?_)
      by_cases ht : (t.name == s.name) = true
      · have h1 : t.name = s.name := by simpa using ht
        simp [Function.comp, ht, h1]
      · simp [Function.comp, ht]
    rw [NamesNodup, heq]
    exact h
  · rw [if_neg hany]
    rw [NamesNodup, List.map_append, List.nodup_append]
    refine ⟨h, List.nodup_singleton _, ?_⟩
    intro x hx
    rcases List.mem_map.mp hx with ⟨t, ht, rfl⟩
    simp only [List.map_cons, List.map_nil, List.mem_singleton]
    intro heq
    exact hany (List.any_eq_true.mpr ⟨t, ht, by simp [heq]⟩)

theorem namesNodup_delete (m : List MCPServer) (n : String)
    (h : NamesNodup m) : NamesNodup (mapDelete m n) := by
  rw [NamesNodup]
  have hsub : List.Sublist ((mapDelete m n).map (fun s => s.name))
      (m.map (fun s => s.name)) :=
    List.Sublist.map _ (List.filter_sublist m)
  exact h.sublist hsub

theorem mapGet_mem (m : List MCPServer) (n : String) (v : MCPServer)
    (h : mapGet m n = some v) : v ∈ m ∧ v.name = n := by
  refine ⟨List.mem_of_find?_eq_some h, ?_⟩
  have := List.find?_some h
  simpa using this

theorem mapGet_eq_none_iff (m : List MCPServer) (n : String) :
    mapGet m n = none ↔ ∀ x ∈ m, x.name ≠ n := by
  rw [mapGet, List.find?_eq_none]
  constructor
  · intro h x hx
    have := h x hx
    simpa using this
  · intro h x hx
    simpa using h x hx

/-- With unique names, the unique element carrying a name is the map value. -/
theorem mem_eq_of_namesNodup (m : List MCPServer) (n : String)
    (v : MCPServer) (hnd : NamesNodup m) (h : mapGet m n = some v) :
    ∀ x ∈ m, x.name = n → x = v := by
  intro x hx hxn
  obtain ⟨hv, hvn⟩ := mapGet_mem m n v h
  exact List.inj_on_of_nodup_map hnd hx hv (by rw [hxn, hvn])

/-- With unique names, `find?` by name returns any member carrying it. -/
theorem find?_name_of_namesNodup (l : List MCPServer) (n : String)
    (x : MCPServer) (hnd : NamesNodup l) (hx : x ∈ l) (hxn : x.name = n) :
    l.find? (fun s => s.name == n) = some x := by
  cases hfind : l.find? (fun s => s.name == n) with
  | none =>
    rw [List.find?_eq_none] at hfind
    exact absurd (by simpa using hxn) (hfind x hx)
  | some y =>
    have hy := List.mem_of_find?_eq_some hfind
    have hyn : y.name = n := by simpa using List.find?_some hfind
    rw [List.inj_on_of_nodup_map hnd hy hx (by rw [hyn, hxn])]

/-! ## Sync orchestrator (`scripts/sync.ts`)

`convertRegistryEntry`, the merge loop of `sync()`, the incremental
enrichment of the affected subset, derived-field computation and the
sorted snapshot, as one pure pipeline over the fetched entries. -/

def convertRegistryEntry (entry : MCPRegistryEntry) : MCPServer :=
  { name := entry.server.name
    description := entry.server.description
    version := entry.server.version
    repository? := entry.server.repository?
    packages := entry.server.packages?.getD []
    remotes := entry.server.remotes?.getD []
    status := entry.meta.status
    publishedAt := entry.meta.publishedAt
    updatedAt := entry.meta.updatedAt
    isLatest := entry.meta.isLatest
    enrichment := { lastEnrichedAt := "" }
    computed := { organization := "", serverName := "", packageTypes := []
                  hasRemote := false, totalDownloads := 0, stars := 0 } }

/-- The converted entry after the "preserve existing enrichment" step
(`existing?.enrichment?.lastEnrichedAt` truthy ⇒ carry the old
enrichment over).  The lookup key `server.name` of the code is
`(convertRegistryEntry entry).name = entry.server.name`. -/
def mergedServer (existing : List MCPServer) (entry : MCPRegistryEntry) :
    MCPServer :=
  match mapGet existing entry.server.name with
  | some ex =>
    if ex.enrichment.lastEnrichedAt ≠ "" then
      { convertRegistryEntry entry with enrichment := ex.enrichment }
    else convertRegistryEntry entry
  | none => convertRegistryEntry entry

/-- One iteration of the merge loop: a deleted entry removes the record,
any other entry upserts it. -/
def mergeEntry (existing : List MCPServer) (updated : List MCPServer)
    (entry : MCPRegistryEntry) : List MCPServer :=
  let server := mergedServer existing entry
  if server.status = ServerStatus.deleted then mapDelete updated server.name
  else mapSet updated server

theorem mergedServer_name (existing : List MCPServer)
    (entry : MCPRegistryEntry) :
    (mergedServer existing entry).name = entry.server.name := by
  rw [mergedServer]
  cases mapGet existing entry.server.name with
  | none => rfl
  | some ex =>
    by_cases h : ex.enrichment.lastEnrichedAt ≠ "" <;> simp [h] <;> rfl

theorem mergedServer_status (existing : List MCPServer)
    (entry : MCPRegistryEntry) :
    (mergedServer existing entry).status = entry.meta.status := by
  rw [mergedServer]
  cases mapGet existing entry.server.name with
  | none => rfl
  | some ex =>
    by_cases h : ex.enrichment.lastEnrichedAt ≠ "" <;> simp [h] <;> rfl

/-- Lookup after the merge loop: the last fetched entry carrying a name
decides that name's record (deletion or upsert); names not fetched keep
their prior record. -/
theorem mapGet_foldl_mergeEntry (existing : List MCPServer) :
    ∀ (entries : List MCPRegistryEntry) (m : List MCPServer) (n : String),
    mapGet (entries.foldl (mergeEntry existing) m) n =
      match entries.reverse.find? (fun e => e.server.name == n) with
      | some e =>
        if e.meta.status = ServerStatus.deleted then none
        else some (mergedServer existing e)
      | none => mapGet m n := by
  intro entries
  induction entries with
  | nil => intro m n; rfl
  | cons e es ih =>
    intro m n
    rw [List.foldl_cons, ih, List.reverse_cons, List.find?_append]
    cases hs : es.reverse.find? (fun e' => e'.server.name == n) with
    | some e' => rfl
    | none =>
      simp only [Option.none_or]
      by_cases hp : (e.server.name == n) = true
      · rw [List.find?_cons_of_pos
          (p := fun (u : MCPRegistryEntry) => u.server.name == n) _ hp]
        have hname : (mergedServer existing e).name = n := by
          rw [mergedServer_name]
          simpa using hp
        rw [mergeEntry]
        by_cases hdel : (mergedServer existing e).status =
            ServerStatus.deleted
        · have hds : e.meta.status = ServerStatus.deleted := by
            rw [← mergedServer_status existing e]; exact hdel
          rw [if_pos hdel, hname, mapGet_delete_self]
          simp [hds]
        · have hds : ¬e.meta.status = ServerStatus.deleted := by
            rw [← mergedServer_status existing e]; exact hdel
          rw [if_neg hdel, ← hname, mapGet_set_self]
          simp [hds]
      · rw [List.find?_cons_of_neg
          (p := fun (u : MCPRegistryEntry) => u.server.name == n) _ hp]
        have hname : (mergedServer existing e).name ≠ n := by
          rw [mergedServer_name]
          simpa using hp
        rw [mergeEntry]
        by_cases hdel : (mergedServer existing e).status =
            ServerStatus.deleted
        · rw [if_pos hdel, mapGet_delete_other _ _ _ hname]
          rfl
        · rw [if_neg hdel, mapGet_set_other _ _ _ hname]
          rfl

theorem namesNodup_foldl_mergeEntry (existing : List MCPServer) :
    ∀ (entries : List MCPRegistryEntry) (m : List MCPServer),
    NamesNodup m → NamesNodup (entries.foldl (mergeEntry existing) m) := by
  intro entries
  induction entries with
  | nil => intro m h; exact h
  | cons e es ih =>
    intro m h
    rw [List.foldl_cons]
    refine ih _ ?_
    rw [mergeEntry]
    by_cases hdel : (mergedServer existing e).status = ServerStatus.deleted
    · rw [if_pos hdel]; exact namesNodup_delete _ _ h
    · rw [if_neg hdel]; exact namesNodup_set _ _ h

/-- Lookup after the write-back loop for the enriched subset. -/
theorem mapGet_foldl_mapSet :
    ∀ (l : List MCPServer) (m : List MCPServer) (n : String),
    mapGet (l.foldl mapSet m) n =
      match l.reverse.find? (fun s => s.name == n) with
      | some s => some s
      | none => mapGet m n := by
  intro l
  induction l with
  | nil => intro m n; rfl
  | cons s ss ih =>
    intro m n
    rw [List.foldl_cons, ih, List.reverse_cons, List.find?_append]
    cases hs : ss.reverse.find? (fun t => t.name == n) with
    | some t => rfl
    | none =>
      simp only [Option.none_or]
      by_cases hp : (s.name == n) = true
      · rw [List.find?_cons_of_pos
          (p := fun (u : MCPServer) => u.name == n) _ hp]
        have hsn : s.name = n := by simpa using hp
        rw [← hsn, mapGet_set_self]
      · rw [List.find?_cons_of_neg
          (p := fun (u : MCPServer) => u.name == n) _ hp,
          mapGet_set_other _ _ _ (by simpa using hp)]
        rfl

theorem namesNodup_foldl_mapSet :
    ∀ (l : List MCPServer) (m : List MCPServer),
    NamesNodup m → NamesNodup (l.foldl mapSet m) := by
  intro l
  induction l with
  | nil => intro m h; exact h
  | cons s ss ih =>
    intro m h
    rw [List.foldl_cons]
    exact ih _ (namesNodup_set _ _ h)

theorem enrichServer_name (env : EnrichEnv) (opts : EnrichmentOptions)
    (s : MCPServer) : (enrichServer env opts s).server.name = s.name := by
  rw [enrichServer]
  by_cases h : (opts.skipIfFresh && isEnrichmentFresh env s opts.maxAge)
      = true
  · rw [if_pos h]
  · rw [if_neg h]

theorem computeServerFields_name (s : MCPServer) :
    (computeServerFields s).name = s.name := rfl

/-- The records the run re-enriches: all of them on a full sync, only the
just-fetched names on an incremental one. -/
def syncEnrichTargets (merged : List MCPServer)
    (entries : List MCPRegistryEntry) (doFullSync : Bool) :
    List MCPServer :=
  if doFullSync then merged
  else merged.filter (fun s => entries.any (fun e => e.server.name == s.name))

/-- The working collection after the merge loop and (when any entries were
fetched) the write-back of the enriched subset. -/
def syncUpdated (env : EnrichEnv) (existing : List MCPServer)
    (entries : List MCPRegistryEntry) (doFullSync : Bool) :
    List MCPServer :=
  if entries.length > 0 then
    (enrichServers env (syncOptions doFullSync)
        (syncEnrichTargets (entries.foldl (mergeEntry existing) existing)
          entries doFullSync)).servers.foldl
      mapSet (entries.foldl (mergeEntry existing) existing)
  else entries.foldl (mergeEntry existing) existing

/-- The pure content of one `sync()` run, from the prior snapshot and the
fetched entries to the persisted snapshot (the sorted record array).
`doFullSync` is `shouldDoFullSync`'s verdict; `env` carries the run's
clock and the source enrichers' outcomes. -/
def syncPipeline (env : EnrichEnv) (existing : List MCPServer)
    (entries : List MCPRegistryEntry) (doFullSync : Bool) :
    List MCPServer :=
  List.insertionSort
    (fun a b => charListLe a.name.data b.name.data = true)
    ((syncUpdated env existing entries doFullSync).map computeServerFields)

theorem namesNodup_filter (p : MCPServer → Bool) (m : List MCPServer)
    (h : NamesNodup m) : NamesNodup (m.filter p) := by
  rw [NamesNodup]
  have hsub : List.Sublist ((m.filter p).map (fun s => s.name))
      (m.map (fun s => s.name)) :=
    List.Sublist.map _ (List.filter_sublist m)
  exact h.sublist hsub

/-- The freshness skip of the coordinator, as one reusable fact. -/
theorem enrichServer_skip_of_fresh (env : EnrichEnv)
    (opts : EnrichmentOptions) (s : MCPServer)
    (hskip : opts.skipIfFresh = true)
    (hne : s.enrichment.lastEnrichedAt ≠ "")
    (hfresh : env.nowMs - env.parseMs s.enrichment.lastEnrichedAt <
      opts.maxAge) :
    enrichServer env opts s = { server := s, sourceCalls := 0 } := by
  have hf : isEnrichmentFresh env s opts.maxAge = true := by
    simp [isEnrichmentFresh, hne, hfresh]
  simp [enrichServer, hskip, hf]

/-- C4 (amended): a fetched entry with status `deleted` that is not followed
(in the same fetched list) by another entry with the same name leaves no
record with that name in the working collection or the persisted
snapshot — even if the prior snapshot had a richly enriched record under
that name. -/
theorem sync_deleted_removes_record (env : EnrichEnv)
    (existing : List MCPServer) (pre post : List MCPRegistryEntry)
    (e : MCPRegistryEntry) (doFullSync : Bool)
    (hdel : e.meta.status = ServerStatus.deleted)
    (hpost : ∀ e' ∈ post, e'.server.name ≠ e.server.name) :
    (∀ x ∈ syncUpdated env existing (pre ++ e :: post) doFullSync,
      x.name ≠ e.server.name)
    ∧ (∀ r ∈ syncPipeline env existing (pre ++ e :: post) doFullSync,
      r.name ≠ e.server.name) := by
  have hfind : (pre ++ e :: post).reverse.find?
      (fun e' => e'.server.name == e.server.name) = some e := by
    rw [List.reverse_append, List.reverse_cons, List.find?_append,
      List.find?_append]
    have h1 : post.reverse.find?
        (fun e' => e'.server.name == e.server.name) = none := by
      rw [List.find?_eq_none]
      intro x hx
      simpa using hpost x (List.mem_reverse.mp hx)
    have h2 : List.find? (fun e' => e'.server.name == e.server.name) [e] =
        some e :=
      List.find?_cons_of_pos _ (by simp)
    rw [h1, h2]
    rfl
  have hmerged : mapGet
      ((pre ++ e :: post).foldl (mergeEntry existing) existing)
      e.server.name = none := by
    rw [mapGet_foldl_mergeEntry, hfind]
    simp [hdel]
  have hnomem : ∀ x ∈ (pre ++ e :: post).foldl (mergeEntry existing)
      existing, x.name ≠ e.server.name :=
    (mapGet_eq_none_iff _ _).mp hmerged
  have hlen : (pre ++ e :: post).length > 0 := by simp
  have hup2 : ∀ x ∈ syncUpdated env existing (pre ++ e :: post) doFullSync,
      x.name ≠ e.server.name := by
    rw [syncUpdated, if_pos hlen]
    have hc : 1 ≤ (syncOptions doFullSync).concurrency := by
      simp [syncOptions]
    rw [enrichServers_eq_map _ _ hc]
    have henr : ∀ y ∈ (syncEnrichTargets
        ((pre ++ e :: post).foldl (mergeEntry existing) existing)
        (pre ++ e :: post) doFullSync).map
          (fun s => (enrichServer env (syncOptions doFullSync) s).server),
        y.name ≠ e.server.name := by
      intro y hy
      rcases List.mem_map.mp hy with ⟨s, hs, rfl⟩
      rw [enrichServer_name]
      have hsm : s ∈ (pre ++ e :: post).foldl (mergeEntry existing)
          existing := by
        rw [syncEnrichTargets] at hs
        cases doFullSync with
        | true => simpa using hs
        | false =>
          rw [if_neg (by simp)] at hs
          exact (List.mem_filter.mp hs).1
      exact hnomem s hsm
    have hget2 : mapGet (((syncEnrichTargets
        ((pre ++ e :: post).foldl (mergeEntry existing) existing)
        (pre ++ e :: post) doFullSync).map
          (fun s => (enrichServer env (syncOptions doFullSync) s).server)).foldl
          mapSet ((pre ++ e :: post).foldl (mergeEntry existing) existing))
        e.server.name = none := by
      rw [mapGet_foldl_mapSet]
      have hrev : ((syncEnrichTargets
          ((pre ++ e :: post).foldl (mergeEntry existing) existing)
          (pre ++ e :: post) doFullSync).map
            (fun s => (enrichServer env (syncOptions doFullSync) s).server)).reverse.find?
            (fun s => s.name == e.server.name) = none := by
        rw [List.find?_eq_none]
        intro x hx
        simpa using henr x (List.mem_reverse.mp hx)
      simp only [hrev, hmerged]
    exact (mapGet_eq_none_iff _ _).mp hget2
  refine ⟨hup2, ?_⟩
  intro r hr
  rw [syncPipeline] at hr
  have hr2 : r ∈ (syncUpdated env existing (pre ++ e :: post)
      doFullSync).map computeServerFields :=
    (List.perm_insertionSort _ _).mem_iff.mp hr
  rcases List.mem_map.mp hr2 with ⟨x, hx, rfl⟩
  rw [computeServerFields_name]
  exact hup2 x hx

def deletedEntryW : MCPRegistryEntry :=
  { server := { name := "a", description := "", version := "1" }
    meta := { status := ServerStatus.deleted, publishedAt := ""
              updatedAt := "", isLatest := true } }

def activeEntryW : MCPRegistryEntry :=
  { server := { name := "a", description := "", version := "2" }
    meta := { status := ServerStatus.active, publishedAt := ""
              updatedAt := "", isLatest := true } }

/-- A previously enriched record under the name `"a"`. -/
def priorServerW : MCPServer :=
  { mkServer "a" with enrichment := { lastEnrichedAt := "t0" } }

theorem sync_deleted_removes_record_witness :
    (syncPipeline envW1 [priorServerW] [deletedEntryW] false).all
      (fun r => r.name != "a") = true := by
  rw [List.all_eq_true]
  intro r hr
  simpa using (sync_deleted_removes_record envW1 [priorServerW] [] []
    deletedEntryW false (by decide) (by intro e' he'; simp at he')).2 r hr

/-- C4 (counterexample): the claim as stated fails when a later entry in the
same fetched list re-adds the deleted name — `sync`'s merge loop is
last-write-wins, so a deleted entry followed by an active entry with the
same name leaves a record with that name in the snapshot. -/
theorem sync_deleted_cex :
    deletedEntryW.meta.status = ServerStatus.deleted
    ∧ ∃ r ∈ syncPipeline envW1 [] [deletedEntryW, activeEntryW] true,
        r.name = deletedEntryW.server.name := by
  decide

/-- C2: on an incremental sync, when the last fetched entry for a name
updates a record whose prior enrichment has a non-empty `lastEnrichedAt`
that is still fresh (so the coordinator's `skipIfFresh` skips it), the
snapshot's record under that name is exactly the converted new registry
entry carrying the prior enrichment object unchanged. -/
theorem sync_incremental_preserves_enrichment (env : EnrichEnv)
    (existing : List MCPServer) (entries : List MCPRegistryEntry)
    (eA : MCPRegistryEntry) (exA : MCPServer)
    (hNodup : NamesNodup existing)
    (hEx : mapGet existing eA.server.name = some exA)
    (hE : exA.enrichment.lastEnrichedAt ≠ "")
    (hLast : entries.reverse.find?
      (fun e => e.server.name == eA.server.name) = some eA)
    (hStatus : eA.meta.status ≠ ServerStatus.deleted)
    (hFresh : env.nowMs - env.parseMs exA.enrichment.lastEnrichedAt <
      (syncOptions false).maxAge) :
    computeServerFields
        { convertRegistryEntry eA with enrichment := exA.enrichment } ∈
      syncPipeline env existing entries false
    ∧ (computeServerFields
        { convertRegistryEntry eA with
          enrichment := exA.enrichment }).enrichment = exA.enrichment
    ∧ (computeServerFields
        { convertRegistryEntry eA with
          enrichment := exA.enrichment }).name = eA.server.name
    ∧ (computeServerFields
        { convertRegistryEntry eA with
          enrichment := exA.enrichment }).description =
        eA.server.description
    ∧ (computeServerFields
        { convertRegistryEntry eA with
          enrichment := exA.enrichment }).version = eA.server.version
    ∧ (computeServerFields
        { convertRegistryEntry eA with
          enrichment := exA.enrichment }).repository? =
        eA.server.repository?
    ∧ (computeServerFields
        { convertRegistryEntry eA with
          enrichment := exA.enrichment }).packages =
        eA.server.packages?.getD []
    ∧ (computeServerFields
        { convertRegistryEntry eA with
          enrichment := exA.enrichment }).remotes =
        eA.server.remotes?.getD []
    ∧ (computeServerFields
        { convertRegistryEntry eA with
          enrichment := exA.enrichment }).status = eA.meta.status
    ∧ (computeServerFields
        { convertRegistryEntry eA with
          enrichment := exA.enrichment }).publishedAt = eA.meta.publishedAt
    ∧ (computeServerFields
        { convertRegistryEntry eA with
          enrichment := exA.enrichment }).updatedAt = eA.meta.updatedAt
    ∧ (computeServerFields
        { convertRegistryEntry eA with
          enrichment := exA.enrichment }).isLatest = eA.meta.isLatest
    ∧ (∀ r' ∈ syncPipeline env existing entries false,
        r'.name = eA.server.name →
        r' = computeServerFields
          { convertRegistryEntry eA with enrichment := exA.enrichment }) := by
  have heAmem : eA ∈ entries :=
    List.mem_reverse.mp (List.mem_of_find?_eq_some hLast)
  have hlen : entries.length > 0 := by
    cases entries with
    | nil => simp at heAmem
    | cons a as => simp
  have hms : mergedServer existing eA =
      { convertRegistryEntry eA with enrichment := exA.enrichment } := by
    rw [mergedServer, hEx]
    simp [hE]
  have hmergedGet : mapGet (entries.foldl (mergeEntry existing) existing)
      eA.server.name =
      some { convertRegistryEntry eA with enrichment := exA.enrichment } := by
    rw [mapGet_foldl_mergeEntry, hLast]
    simp [hStatus, hms]
  have hnd1 : NamesNodup (entries.foldl (mergeEntry existing) existing) :=
    namesNodup_foldl_mergeEntry existing entries existing hNodup
  have hmemM : ({ convertRegistryEntry eA with
      enrichment := exA.enrichment } : MCPServer) ∈
      entries.foldl (mergeEntry existing) existing :=
    (mapGet_mem _ _ _ hmergedGet).1
  have hTdef : syncEnrichTargets (entries.foldl (mergeEntry existing)
      existing) entries false =
      (entries.foldl (mergeEntry existing) existing).filter
        (fun s => entries.any (fun e => e.server.name == s.name)) := by
    rw [syncEnrichTargets, if_neg (by simp)]
  have hmemT : ({ convertRegistryEntry eA with
      enrichment := exA.enrichment } : MCPServer) ∈
      syncEnrichTargets (entries.foldl (mergeEntry existing) existing)
        entries false := by
    rw [hTdef]
    refine List.mem_filter.mpr ⟨hmemM, ?_⟩
    exact List.any_eq_true.mpr ⟨eA, heAmem, by simp [convertRegistryEntry]⟩
  have hndT : NamesNodup (syncEnrichTargets
      (entries.foldl (mergeEntry existing) existing) entries false) := by
    rw [hTdef]
    exact namesNodup_filter _ _ hnd1
  have hskipA : enrichServer env (syncOptions false)
      { convertRegistryEntry eA with enrichment := exA.enrichment } =
      { server := { convertRegistryEntry eA with
          enrichment := exA.enrichment }
        sourceCalls := 0 } :=
    enrichServer_skip_of_fresh env _ _ rfl hE hFresh
  have hc : 1 ≤ (syncOptions false).concurrency := by simp [syncOptions]
  have hESs : (enrichServers env (syncOptions false)
      (syncEnrichTargets (entries.foldl (mergeEntry existing) existing)
        entries false)).servers =
      (syncEnrichTargets (entries.foldl (mergeEntry existing) existing)
        entries false).map
        (fun s => (enrichServer env (syncOptions false) s).server) := by
    rw [enrichServers_eq_map _ _ hc]
  have hmemE : ({ convertRegistryEntry eA with
      enrichment := exA.enrichment } : MCPServer) ∈
      (syncEnrichTargets (entries.foldl (mergeEntry existing) existing)
        entries false).map
        (fun s => (enrichServer env (syncOptions false) s).server) :=
    List.mem_map.mpr ⟨_, hmemT, by rw [hskipA]⟩
  have hndE : NamesNodup ((syncEnrichTargets
      (entries.foldl (mergeEntry existing) existing) entries false).map
      (fun s => (enrichServer env (syncOptions false) s).server)) := by
    rw [NamesNodup, List.map_map]
    have hcomp : ((fun (s : MCPServer) => s.name) ∘
        (fun s => (enrichServer env (syncOptions false) s).server)) =
        fun (s : MCPServer) => s.name :=
      funext (fun s => by
        simp [Function.comp, enrichServer_name])
    rw [hcomp]
    exact hndT
  have hrevE : (((syncEnrichTargets
      (entries.foldl (mergeEntry existing) existing) entries false).map
      (fun s => (enrichServer env (syncOptions false) s).server)).reverse).find?
      (fun s => s.name == eA.server.name) =
      some { convertRegistryEntry eA with enrichment := exA.enrichment } := by
    apply find?_name_of_namesNodup
    · rw [NamesNodup, List.map_reverse]
      exact List.nodup_reverse.mpr hndE
    · exact List.mem_reverse.mpr hmemE
    · rfl
  have hupGet : mapGet (syncUpdated env existing entries false)
      eA.server.name =
      some { convertRegistryEntry eA with enrichment := exA.enrichment } := by
    rw [syncUpdated, if_pos hlen, hESs, mapGet_foldl_mapSet]
    simp only [hrevE]
  have hnd2 : NamesNodup (syncUpdated env existing entries false) := by
    rw [syncUpdated, if_pos hlen]
    exact namesNodup_foldl_mapSet _ _ hnd1
  have hsnapmem : computeServerFields
      { convertRegistryEntry eA with enrichment := exA.enrichment } ∈
      syncPipeline env existing entries false := by
    rw [syncPipeline]
    refine (List.perm_insertionSort _ _).mem_iff.mpr ?_
    exact List.mem_map.mpr ⟨_, (mapGet_mem _ _ _ hupGet).1, rfl⟩
  refine ⟨hsnapmem, rfl, rfl, rfl, rfl, rfl, rfl, rfl, rfl, rfl, rfl, rfl,
    ?_⟩
  intro r' hr' hrn
  rw [syncPipeline] at hr'
  have hr2 : r' ∈ (syncUpdated env existing entries false).map
      computeServerFields :=
    (List.perm_insertionSort _ _).mem_iff.mp hr'
  rcases List.mem_map.mp hr2 with ⟨x, hx, rfl⟩
  have hxn : x.name = eA.server.name := by
    rw [← computeServerFields_name x]
    exact hrn
  rw [mem_eq_of_namesNodup _ _ _ hnd2 hupGet x hx hxn]

/-- An incremental update to the registry fields of `"a"`. -/
def updateEntryW : MCPRegistryEntry :=
  { server := { name := "a", description := "d2", version := "2" }
    meta := { status := ServerStatus.active, publishedAt := "p2"
              updatedAt := "u2", isLatest := true } }

theorem sync_incremental_preserves_enrichment_witness :
    computeServerFields
        { convertRegistryEntry updateEntryW with
          enrichment := priorServerW.enrichment } ∈
      syncPipeline envW1 [priorServerW] [updateEntryW] false
    ∧ (computeServerFields
        { convertRegistryEntry updateEntryW with
          enrichment := priorServerW.enrichment }).enrichment =
        priorServerW.enrichment := by
  have h := sync_incremental_preserves_enrichment envW1 [priorServerW]
    [updateEntryW] updateEntryW priorServerW (by rw [NamesNodup]; decide)
    (by decide) (by decide) (by decide) (by decide) (by decide)
  exact ⟨h.1, h.2.1⟩
